import Mathlib

/-!
Shallow embedding of the LRU cache of `src/LRUCache.h`.

The C++ class `LRUCache<Key, Value>` keeps
  * `items_list_ : std::list<std::pair<Key, Value>>` — the recency order,
    front = most recently used, back = least recently used;
  * `items_map_  : std::unordered_map<Key, list::iterator>` — the index,
    mapping a key to the iterator of the list node that stores it;
  * `capacity_   : size_t` and a mutex serializing every public call.

We embed the list as `List (K × V)` (head = front).  A `std::list` iterator
is a stable handle to one node; since in every reachable state the node an
index entry points to holds exactly that entry's key, we embed an iterator
as the key of the node it points to, so `items_map_ : List (K × K)`
(association list: key ↦ key held by the pointed node).  Dereferencing an
iterator `j` means locating the first node whose key is `j`.

`put` can reach `items_list_.back()` on an empty list (undefined behavior in
C++, possible only when `capacity_ = 0`); the embedding of `put` therefore
returns an `Option`, `none` marking that undefined behavior was reached.
The mutex makes every public call atomic, so the sequential semantics
embedded here is the per-call semantics of the class.
-/

universe u v

variable {K : Type u} {V : Type v}

/-- The state of a `LRUCache<Key, Value>` object: capacity, the recency
list (front = most recently used) and the index map (key ↦ key of the
pointed list node, embedding the stored iterator). -/
structure LRUCache (K : Type u) (V : Type v) where
  capacity_ : Nat
  items_list_ : List (K × V)
  items_map_ : List (K × K)
deriving DecidableEq

/-- The predicate "this node holds key `k`", used to locate the node an
iterator for `k` points to. -/
def keyPred [DecidableEq K] (k : K) : K × V → Bool := fun p => decide (p.1 = k)

/-- `items_list_.splice(items_list_.begin(), items_list_, it)`: move the
node pointed to by the iterator (the first node whose key is `j`) to the
front of the list; if no such node exists the embedding leaves the list
unchanged (in C++ this situation would be undefined behavior and is
unreachable). -/
def spliceToFront [DecidableEq K] (l : List (K × V)) (j : K) : List (K × V) :=
  match l.find? (keyPred j) with
  | none => l
  | some e => e :: l.eraseP (keyPred j)

/-- `it->second->second = value`: write `value` into the node pointed to by
the iterator, i.e. the first node whose key is `j`. -/
def writeValue [DecidableEq K] : List (K × V) → K → V → List (K × V)
  | [], _, _ => []
  | p :: t, j, v => if p.1 = j then (p.1, v) :: t else p :: writeValue t j v

/-- `items_map_.find(key)`: the index entry for `key`, if present. -/
def mapFind [DecidableEq K] (m : List (K × K)) (k : K) : Option (K × K) :=
  m.find? (keyPred k)

/-- `items_map_.erase(key)`: remove the index entry for `key`. -/
def mapErase [DecidableEq K] (m : List (K × K)) (k : K) : List (K × K) :=
  m.eraseP (keyPred k)

/-- `items_map_[key] = it`: insert-or-assign the index entry for `key`
(the hash map holds at most one entry per key). -/
def mapAssign [DecidableEq K] : List (K × K) → K → K → List (K × K)
  | [], k, j => [(k, j)]
  | p :: t, k, j => if p.1 = k then (k, j) :: t else p :: mapAssign t k j

/-- `LRUCache(capacity)`: stores the capacity verbatim, starts empty. -/
def LRUCache.init (capacity : Nat) : LRUCache K V :=
  { capacity_ := capacity, items_list_ := [], items_map_ := [] }

/-- `std::optional<Value> get(const Key&)`: look the key up in the index;
on a miss return `none` and leave the state unchanged; on a hit splice the
pointed node to the front and return a copy of its value.  Returns the
result together with the state after the call. -/
def LRUCache.get [DecidableEq K] (c : LRUCache K V) (key : K) :
    Option V × LRUCache K V :=
  match mapFind c.items_map_ key with
  | none => (none, c)
  | some it =>
      let l := spliceToFront c.items_list_ it.2
      ((l.find? (keyPred it.2)).map Prod.snd, { c with items_list_ := l })

/-- `void put(const Key&, const Value&)`: if the key is present, overwrite
the pointed node's value in place and splice it to the front.  Otherwise,
if `items_list_.size() >= capacity_`, evict: read `items_list_.back()`,
erase its key from the index and pop it from the back; then emplace the new
pair at the front and record its iterator in the index.  `none` marks the
undefined behavior of `back()` on an empty list (reachable only with
`capacity_ = 0`). -/
def LRUCache.put [DecidableEq K] (c : LRUCache K V) (key : K) (value : V) :
    Option (LRUCache K V) :=
  match mapFind c.items_map_ key with
  | some it =>
      some { c with
        items_list_ := spliceToFront (writeValue c.items_list_ it.2 value) it.2 }
  | none =>
      match (if c.capacity_ ≤ c.items_list_.length then
               match c.items_list_.getLast? with
               | none => none
               | some lru =>
                   some (c.items_list_.dropLast, mapErase c.items_map_ lru.1)
             else some (c.items_list_, c.items_map_)) with
      | none => none
      | some (l, m) =>
          some { c with
            items_list_ := (key, value) :: l,
            items_map_ := mapAssign m key key }

/-- `bool exists(const Key&) const`: membership test on the index; the
method is `const` and mutates nothing. -/
def LRUCache.exists_ [DecidableEq K] (c : LRUCache K V) (key : K) : Bool :=
  (mapFind c.items_map_ key).isSome

/-- `size_t size() const`: the length of the recency list. -/
def LRUCache.size (c : LRUCache K V) : Nat := c.items_list_.length

/-- The keys currently resident, in recency order (front = most recent). -/
def listKeys (c : LRUCache K V) : List K := c.items_list_.map Prod.fst

/-- The keys recorded in the index map. -/
def mapKeys (c : LRUCache K V) : List K := c.items_map_.map Prod.fst

/-- The value currently stored under a key (a read-only view of the list,
used to state properties; not an operation of the class). -/
def valueOf [DecidableEq K] (c : LRUCache K V) (k : K) : Option V :=
  (c.items_list_.find? (keyPred k)).map Prod.snd

/-- One public call of the API, as data. -/
inductive Op (K : Type u) (V : Type v) where
  | get (key : K)
  | put (key : K) (value : V)
  | exists_ (key : K)
  | size
deriving DecidableEq

/-- Whether an operation is an `exists` call. -/
def Op.isEx : Op K V → Bool
  | .exists_ _ => true
  | _ => false

/-- The state after one public call.  `get` keeps the state it returns,
`put` may hit undefined behavior (`none`), and `exists`/`size` are `const`
methods, leaving the state unchanged. -/
def LRUCache.step [DecidableEq K] (c : LRUCache K V) : Op K V → Option (LRUCache K V)
  | .get k => some (c.get k).2
  | .put k v => c.put k v
  | .exists_ _ => some c
  | .size => some c

/-- Run a sequence of public calls from a state; `none` if undefined
behavior was reached. -/
def LRUCache.run [DecidableEq K] (c : LRUCache K V) :
    List (Op K V) → Option (LRUCache K V)
  | [] => some c
  | op :: ops =>
      match c.step op with
      | none => none
      | some c2 => c2.run ops

/-- The representation invariant of the class: both key lists are
duplicate-free, the index and the list hold the same keys, every index
entry points to the node holding its own key, the two structures have the
same cardinality, and the list fits in the capacity. -/
def WF [DecidableEq K] (c : LRUCache K V) : Prop :=
  (listKeys c).Nodup ∧
  (mapKeys c).Nodup ∧
  (∀ k ∈ listKeys c, k ∈ mapKeys c) ∧
  (∀ k ∈ mapKeys c, k ∈ listKeys c) ∧
  (∀ p ∈ c.items_map_, p.2 = p.1) ∧
  c.items_list_.length = c.items_map_.length ∧
  c.items_list_.length ≤ c.capacity_

instance [DecidableEq K] (c : LRUCache K V) : Decidable (WF c) := by
  unfold WF; infer_instance

theorem keyPred_eq_true [DecidableEq K] {k : K} {p : K × V} :
    keyPred k p = true ↔ p.1 = k := by
  simp [keyPred]

theorem find?_keyPred_eq_none [DecidableEq K] {l : List (K × V)} {k : K} :
    l.find? (keyPred k) = none ↔ k ∉ l.map Prod.fst := by
  rw [List.find?_eq_none]
  constructor
  · intro h hk
    rcases List.mem_map.1 hk with ⟨p, hp, hpk⟩
    exact h p hp (keyPred_eq_true.2 hpk)
  · intro h p hp hpred
    exact h (List.mem_map.2 ⟨p, hp, keyPred_eq_true.1 hpred⟩)

theorem mem_keys_split [DecidableEq K] {l : List (K × V)} {k : K}
    (h : k ∈ l.map Prod.fst) :
    ∃ v l₁ l₂, l = l₁ ++ (k, v) :: l₂ ∧ k ∉ l₁.map Prod.fst := by
  induction l with
  | nil => simp at h
  | cons p t ih =>
      by_cases hpk : p.1 = k
      · exact ⟨p.2, [], t, by simp [← hpk], by simp⟩
      · have hk : k ∈ t.map Prod.fst := by
          rcases List.mem_map.1 h with ⟨q, hq, hqk⟩
          rcases List.mem_cons.1 hq with hq | hq
          · exact absurd (hq ▸ hqk) hpk
          · exact List.mem_map.2 ⟨q, hq, hqk⟩
        rcases ih hk with ⟨v, l₁, l₂, he, hnm⟩
        exact ⟨v, p :: l₁, l₂, by simp [he], by simp [hnm, Ne.symm, hpk]⟩

theorem find?_keyPred_split [DecidableEq K] {l₁ l₂ : List (K × V)} {k : K}
    {v : V} (h₁ : k ∉ l₁.map Prod.fst) :
    (l₁ ++ (k, v) :: l₂).find? (keyPred k) = some (k, v) := by
  rw [List.find?_append, find?_keyPred_eq_none.2 h₁]
  simp [List.find?_cons, keyPred]

theorem eraseP_keyPred_split [DecidableEq K] {l₁ l₂ : List (K × V)} {k : K}
    {v : V} (h₁ : k ∉ l₁.map Prod.fst) :
    (l₁ ++ (k, v) :: l₂).eraseP (keyPred k) = l₁ ++ l₂ := by
  rw [List.eraseP_append_right, List.eraseP_cons_of_pos]
  · simp [keyPred]
  · intro p hp hpred
    exact h₁ (List.mem_map.2 ⟨p, hp, keyPred_eq_true.1 hpred⟩)

theorem writeValue_split [DecidableEq K] {l₁ l₂ : List (K × V)} {k : K}
    {v w : V} (h₁ : k ∉ l₁.map Prod.fst) :
    writeValue (l₁ ++ (k, v) :: l₂) k w = l₁ ++ (k, w) :: l₂ := by
  induction l₁ with
  | nil => simp [writeValue]
  | cons p t ih =>
      have hpk : p.1 ≠ k := by
        intro hc; exact h₁ (by simp [hc])
      have ht : k ∉ t.map Prod.fst := by
        intro hc; exact h₁ (by simp [hc])
      simp [writeValue, hpk, ih ht]

theorem spliceToFront_split [DecidableEq K] {l₁ l₂ : List (K × V)} {k : K}
    {v : V} (h₁ : k ∉ l₁.map Prod.fst) :
    spliceToFront (l₁ ++ (k, v) :: l₂) k = (k, v) :: (l₁ ++ l₂) := by
  rw [spliceToFront, find?_keyPred_split h₁, eraseP_keyPred_split h₁]

theorem find?_keyPred_ne [DecidableEq K] {l₁ l₂ : List (K × V)} {k j : K}
    {v : V} (hne : k ≠ j) :
    (l₁ ++ (k, v) :: l₂).find? (keyPred j) = (l₁ ++ l₂).find? (keyPred j) := by
  rw [List.find?_append, List.find?_append, List.find?_cons]
  have : keyPred j (k, v) = false := by
    simp [keyPred, hne]
  simp [this]

theorem mapAssign_not_mem [DecidableEq K] {m : List (K × K)} {k j : K}
    (h : k ∉ m.map Prod.fst) : mapAssign m k j = m ++ [(k, j)] := by
  induction m with
  | nil => rfl
  | cons p t ih =>
      have hpk : p.1 ≠ k := by
        intro hc; exact h (by simp [hc])
      have ht : k ∉ t.map Prod.fst := by
        intro hc; exact h (by simp [hc])
      simp [mapAssign, hpk, ih ht]

theorem WF.nodupL [DecidableEq K] {c : LRUCache K V} (hw : WF c) :
    (listKeys c).Nodup := hw.1

theorem WF.nodupM [DecidableEq K] {c : LRUCache K V} (hw : WF c) :
    (mapKeys c).Nodup := hw.2.1

theorem WF.subLM [DecidableEq K] {c : LRUCache K V} (hw : WF c) :
    ∀ k ∈ listKeys c, k ∈ mapKeys c := hw.2.2.1

theorem WF.subML [DecidableEq K] {c : LRUCache K V} (hw : WF c) :
    ∀ k ∈ mapKeys c, k ∈ listKeys c := hw.2.2.2.1

theorem WF.mapId [DecidableEq K] {c : LRUCache K V} (hw : WF c) :
    ∀ p ∈ c.items_map_, p.2 = p.1 := hw.2.2.2.2.1

theorem WF.lenEq [DecidableEq K] {c : LRUCache K V} (hw : WF c) :
    c.items_list_.length = c.items_map_.length := hw.2.2.2.2.2.1

theorem WF.lenLe [DecidableEq K] {c : LRUCache K V} (hw : WF c) :
    c.items_list_.length ≤ c.capacity_ := hw.2.2.2.2.2.2

theorem mapFind_eq_none [DecidableEq K] {m : List (K × K)} {k : K} :
    mapFind m k = none ↔ k ∉ m.map Prod.fst := find?_keyPred_eq_none

theorem mapFind_self [DecidableEq K] {c : LRUCache K V} {k : K} (hw : WF c)
    (h : k ∈ mapKeys c) : mapFind c.items_map_ k = some (k, k) := by
  have h' : k ∈ c.items_map_.map Prod.fst := h
  rcases mem_keys_split h' with ⟨j, m₁, m₂, he, hnm⟩
  have hjk : j = k := by
    have hmem : (k, j) ∈ c.items_map_ := by rw [he]; simp
    exact hw.mapId (k, j) hmem
  rw [mapFind, he, hjk, find?_keyPred_split hnm]

theorem get_miss [DecidableEq K] {c : LRUCache K V} {k : K}
    (h : k ∉ mapKeys c) : c.get k = (none, c) := by
  unfold LRUCache.get
  rw [mapFind_eq_none.2 h]

theorem get_hit [DecidableEq K] {c : LRUCache K V} {k : K} (hw : WF c)
    (h : k ∈ listKeys c) :
    ∃ v l₁ l₂,
      c.items_list_ = l₁ ++ (k, v) :: l₂ ∧ k ∉ l₁.map Prod.fst ∧
      c.get k = (some v, { c with items_list_ := (k, v) :: (l₁ ++ l₂) }) := by
  have hm : k ∈ mapKeys c := hw.subLM k h
  have h' : k ∈ c.items_list_.map Prod.fst := h
  rcases mem_keys_split h' with ⟨v, l₁, l₂, he, hnm⟩
  refine ⟨v, l₁, l₂, he, hnm, ?_⟩
  unfold LRUCache.get
  rw [mapFind_self hw hm]
  simp only []
  rw [he, spliceToFront_split hnm]
  simp [List.find?_cons, keyPred]

theorem put_mem [DecidableEq K] {c : LRUCache K V} {k : K} (v2 : V) (hw : WF c)
    (h : k ∈ listKeys c) :
    ∃ v l₁ l₂,
      c.items_list_ = l₁ ++ (k, v) :: l₂ ∧ k ∉ l₁.map Prod.fst ∧
      c.put k v2 = some { c with items_list_ := (k, v2) :: (l₁ ++ l₂) } := by
  have hm : k ∈ mapKeys c := hw.subLM k h
  have h' : k ∈ c.items_list_.map Prod.fst := h
  rcases mem_keys_split h' with ⟨v, l₁, l₂, he, hnm⟩
  refine ⟨v, l₁, l₂, he, hnm, ?_⟩
  unfold LRUCache.put
  rw [mapFind_self hw hm]
  simp only []
  rw [he, writeValue_split hnm, spliceToFront_split hnm]

theorem put_new_no_evict [DecidableEq K] {c : LRUCache K V} {k : K} {v : V}
    (h : k ∉ mapKeys c) (hlt : c.items_list_.length < c.capacity_) :
    c.put k v = some { c with items_list_ := (k, v) :: c.items_list_,
                              items_map_ := mapAssign c.items_map_ k k } := by
  unfold LRUCache.put
  rw [mapFind_eq_none.2 h, if_neg (by omega)]

theorem put_new_evict [DecidableEq K] {c : LRUCache K V} {k : K} {v : V}
    {l' : List (K × V)} {e : K × V}
    (h : k ∉ mapKeys c) (hge : c.capacity_ ≤ c.items_list_.length)
    (he : c.items_list_ = l' ++ [e]) :
    c.put k v = some { c with
      items_list_ := (k, v) :: l',
      items_map_ := mapAssign (mapErase c.items_map_ e.1) k k } := by
  unfold LRUCache.put
  rw [mapFind_eq_none.2 h, if_pos hge, he, List.getLast?_concat,
    List.dropLast_concat]

theorem put_ub [DecidableEq K] {c : LRUCache K V} {k : K} {v : V}
    (h : k ∉ mapKeys c) (hge : c.capacity_ ≤ c.items_list_.length)
    (hemp : c.items_list_ = []) : c.put k v = none := by
  unfold LRUCache.put
  rw [mapFind_eq_none.2 h, if_pos hge, hemp]
  rfl

theorem WF_relocate [DecidableEq K] {c : LRUCache K V} {k : K} {v v' : V}
    {l₁ l₂ : List (K × V)} (hw : WF c)
    (he : c.items_list_ = l₁ ++ (k, v) :: l₂) :
    WF { c with items_list_ := (k, v') :: (l₁ ++ l₂) } := by
  have hperm : List.Perm (listKeys c) (k :: (l₁.map Prod.fst ++ l₂.map Prod.fst)) := by
    rw [listKeys, he]
    simp only [List.map_append, List.map_cons]
    exact List.perm_middle
  have hlen : c.items_list_.length = l₁.length + (l₂.length + 1) := by
    rw [he]; simp
  refine ⟨?_, hw.nodupM, ?_, ?_, hw.mapId, ?_, ?_⟩
  · simp only [listKeys, List.map_cons, List.map_append]
    exact hperm.nodup hw.nodupL
  · intro a ha
    simp only [listKeys, List.map_cons, List.map_append] at ha
    exact hw.subLM a (hperm.mem_iff.2 ha)
  · intro a ha
    simp only [listKeys, List.map_cons, List.map_append]
    exact hperm.mem_iff.1 (hw.subML a ha)
  · have := hw.lenEq
    simp only [List.length_cons, List.length_append]
    omega
  · have := hw.lenLe
    simp only [List.length_cons, List.length_append]
    omega

theorem WF_insert_new [DecidableEq K] {c : LRUCache K V} {k : K} {v : V}
    (hw : WF c) (hm : k ∉ mapKeys c)
    (hlt : c.items_list_.length < c.capacity_) :
    WF { c with items_list_ := (k, v) :: c.items_list_,
                items_map_ := mapAssign c.items_map_ k k } := by
  have hkl : k ∉ listKeys c := fun hk => hm (hw.subLM k hk)
  have hAssign : mapAssign c.items_map_ k k = c.items_map_ ++ [(k, k)] :=
    mapAssign_not_mem hm
  refine ⟨?_, ?_, ?_, ?_, ?_, ?_, ?_⟩
  · simp only [listKeys, List.map_cons]
    exact List.nodup_cons.2 ⟨hkl, hw.nodupL⟩
  · simp only [mapKeys, hAssign, List.map_append, List.map_cons, List.map_nil]
    refine ((List.perm_append_singleton k _).symm).nodup ?_
    exact List.nodup_cons.2 ⟨hm, hw.nodupM⟩
  · intro a ha
    simp only [listKeys, List.map_cons, List.mem_cons] at ha
    simp only [mapKeys, hAssign, List.map_append, List.map_cons, List.map_nil,
      List.mem_append, List.mem_singleton]
    rcases ha with ha | ha
    · exact Or.inr ha
    · exact Or.inl (hw.subLM a ha)
  · intro a ha
    simp only [mapKeys, hAssign, List.map_append, List.map_cons, List.map_nil,
      List.mem_append, List.mem_singleton] at ha
    simp only [listKeys, List.map_cons, List.mem_cons]
    rcases ha with ha | ha
    · exact Or.inr (hw.subML a ha)
    · exact Or.inl ha
  · intro p hp
    rw [hAssign] at hp
    rcases List.mem_append.1 hp with hp | hp
    · exact hw.mapId p hp
    · rw [List.mem_singleton.1 hp]
  · have := hw.lenEq
    simp only [List.length_cons, hAssign, List.length_append,
      List.length_cons, List.length_nil]
    omega
  · simp only [List.length_cons]
    omega

theorem WF_evict_insert [DecidableEq K] {c : LRUCache K V} {k : K} {v : V}
    {l' : List (K × V)} {e : K × V}
    (hw : WF c) (hm : k ∉ mapKeys c) (he : c.items_list_ = l' ++ [e]) :
    WF { c with items_list_ := (k, v) :: l',
                items_map_ := mapAssign (mapErase c.items_map_ e.1) k k } := by
  have hkl : k ∉ listKeys c := fun hk => hm (hw.subLM k hk)
  have heL : listKeys c = l'.map Prod.fst ++ [e.1] := by
    rw [listKeys, he]; simp
  have hkl' : k ∉ l'.map Prod.fst := fun hc =>
    hkl (by rw [heL]; exact List.mem_append_left _ hc)
  have he1L : e.1 ∈ listKeys c := by rw [heL]; simp
  rcases mem_keys_split (hw.subLM e.1 he1L : e.1 ∈ c.items_map_.map Prod.fst)
    with ⟨j, m₁, m₂, hem, hnm₁⟩
  have hj : j = e.1 := hw.mapId (e.1, j) (by rw [hem]; simp)
  subst hj
  have hErase : mapErase c.items_map_ e.1 = m₁ ++ m₂ := by
    rw [mapErase, hem, eraseP_keyPred_split hnm₁]
  have hMkeys : mapKeys c = m₁.map Prod.fst ++ e.1 :: m₂.map Prod.fst := by
    rw [mapKeys, hem]; simp
  have hkE : k ∉ (m₁.map Prod.fst ++ m₂.map Prod.fst) := by
    intro hc
    apply hm
    rw [hMkeys]
    rcases List.mem_append.1 hc with h1 | h2
    · exact List.mem_append_left _ h1
    · exact List.mem_append_right _ (List.mem_cons_of_mem _ h2)
  have hkE' : k ∉ (m₁ ++ m₂).map Prod.fst := by
    simpa only [List.map_append] using hkE
  have hAssign : mapAssign (mapErase c.items_map_ e.1) k k =
      (m₁ ++ m₂) ++ [(k, k)] := by
    rw [hErase, mapAssign_not_mem hkE']
  have hnodL : (l'.map Prod.fst ++ [e.1]).Nodup := by
    rw [← heL]; exact hw.nodupL
  have hnodL' : (l'.map Prod.fst).Nodup := hnodL.of_append_left
  have he1l' : e.1 ∉ l'.map Prod.fst :=
    (List.nodup_cons.1 ((List.perm_append_singleton e.1 _).nodup hnodL)).1
  have hnodM : (m₁.map Prod.fst ++ e.1 :: m₂.map Prod.fst).Nodup := by
    rw [← hMkeys]; exact hw.nodupM
  have hnodM' : (e.1 :: (m₁.map Prod.fst ++ m₂.map Prod.fst)).Nodup :=
    List.perm_middle.nodup hnodM
  have he1E : e.1 ∉ m₁.map Prod.fst ++ m₂.map Prod.fst :=
    (List.nodup_cons.1 hnodM').1
  have hnodE : (m₁.map Prod.fst ++ m₂.map Prod.fst).Nodup :=
    (List.nodup_cons.1 hnodM').2
  refine ⟨?_, ?_, ?_, ?_, ?_, ?_, ?_⟩
  · simp only [listKeys, List.map_cons]
    exact List.nodup_cons.2 ⟨hkl', hnodL'⟩
  · simp only [mapKeys, hAssign, List.map_append, List.map_cons, List.map_nil]
    refine ((List.perm_append_singleton k _).symm).nodup ?_
    exact List.nodup_cons.2 ⟨hkE, hnodE⟩
  · intro a ha
    simp only [listKeys, List.map_cons, List.mem_cons] at ha
    simp only [mapKeys, hAssign, List.map_append, List.map_cons, List.map_nil,
      List.mem_append, List.mem_singleton]
    rcases ha with ha | ha
    · exact Or.inr ha
    · have haM : a ∈ mapKeys c :=
        hw.subLM a (by rw [heL]; exact List.mem_append_left _ ha)
      rw [hMkeys] at haM
      rcases List.mem_append.1 haM with h1 | h2
      · exact Or.inl (Or.inl h1)
      · rcases List.mem_cons.1 h2 with h2 | h2
        · exact absurd (h2 ▸ ha) he1l'
        · exact Or.inl (Or.inr h2)
  · intro a ha
    simp only [mapKeys, hAssign, List.map_append, List.map_cons, List.map_nil,
      List.mem_append, List.mem_singleton] at ha
    simp only [listKeys, List.map_cons, List.mem_cons]
    rcases ha with (ha | ha) | ha
    · have haM : a ∈ mapKeys c := by
        rw [hMkeys]; exact List.mem_append_left _ ha
      have haL : a ∈ listKeys c := hw.subML a haM
      rw [heL] at haL
      rcases List.mem_append.1 haL with h1 | h2
      · exact Or.inr h1
      · exact absurd ((List.mem_singleton.1 h2) ▸ ha)
          (fun hc => he1E (List.mem_append_left _ hc))
    · have haM : a ∈ mapKeys c := by
        rw [hMkeys]
        exact List.mem_append_right _ (List.mem_cons_of_mem _ ha)
      have haL : a ∈ listKeys c := hw.subML a haM
      rw [heL] at haL
      rcases List.mem_append.1 haL with h1 | h2
      · exact Or.inr h1
      · exact absurd ((List.mem_singleton.1 h2) ▸ ha)
          (fun hc => he1E (List.mem_append_right _ hc))
    · exact Or.inl ha
  · intro p hp
    rw [hAssign] at hp
    rcases List.mem_append.1 hp with hp | hp
    · have hpm : p ∈ c.items_map_ := by
        rw [hem]
        rcases List.mem_append.1 hp with h1 | h2
        · exact List.mem_append_left _ h1
        · exact List.mem_append_right _ (List.mem_cons_of_mem _ h2)
      exact hw.mapId p hpm
    · rw [List.mem_singleton.1 hp]
  · have h1 := hw.lenEq
    have h2 : c.items_list_.length = l'.length + 1 := by rw [he]; simp
    have h3 : c.items_map_.length = m₁.length + (m₂.length + 1) := by
      rw [hem]; simp
    simp only [List.length_cons, hAssign, List.length_append,
      List.length_nil]
    omega
  · have h1 := hw.lenLe
    have h2 : c.items_list_.length = l'.length + 1 := by rw [he]; simp
    simp only [List.length_cons]
    omega

theorem WF_get [DecidableEq K] {c : LRUCache K V} (k : K) (hw : WF c) :
    WF (c.get k).2 ∧ (c.get k).2.capacity_ = c.capacity_ := by
  by_cases hm : k ∈ mapKeys c
  · rcases get_hit hw (hw.subML k hm) with ⟨v, l₁, l₂, he, _, hg⟩
    rw [hg]
    exact ⟨WF_relocate hw he, rfl⟩
  · rw [get_miss hm]
    exact ⟨hw, rfl⟩

theorem WF_put [DecidableEq K] {c : LRUCache K V} {k : K} {v : V}
    {c' : LRUCache K V} (hw : WF c) (hp : c.put k v = some c') :
    WF c' ∧ c'.capacity_ = c.capacity_ := by
  by_cases hm : k ∈ mapKeys c
  · rcases put_mem v hw (hw.subML k hm) with ⟨v0, l₁, l₂, he, _, hpe⟩
    rw [hpe] at hp
    cases hp
    exact ⟨WF_relocate hw he, rfl⟩
  · by_cases hcap : c.capacity_ ≤ c.items_list_.length
    · rcases List.eq_nil_or_concat c.items_list_ with hemp | ⟨l', e, hcon⟩
      · rw [put_ub hm hcap hemp] at hp
        cases hp
      · have hcon' : c.items_list_ = l' ++ [e] := by
          rw [hcon, List.concat_eq_append]
        rw [put_new_evict hm hcap hcon'] at hp
        cases hp
        exact ⟨WF_evict_insert hw hm hcon', rfl⟩
    · rw [put_new_no_evict hm (by omega)] at hp
      cases hp
      exact ⟨WF_insert_new hw hm (by omega), rfl⟩

theorem WF_init [DecidableEq K] {cap : Nat} :
    WF (LRUCache.init cap : LRUCache K V) := by
  refine ⟨?_, ?_, ?_, ?_, ?_, ?_, ?_⟩ <;>
    simp [listKeys, mapKeys, LRUCache.init]

theorem WF_step [DecidableEq K] {c c' : LRUCache K V} {op : Op K V}
    (hw : WF c) (hs : c.step op = some c') :
    WF c' ∧ c'.capacity_ = c.capacity_ := by
  cases op with
  | get k =>
      simp only [LRUCache.step] at hs
      cases hs
      exact WF_get k hw
  | put k v => exact WF_put hw hs
  | exists_ k =>
      simp only [LRUCache.step] at hs
      cases hs
      exact ⟨hw, rfl⟩
  | size =>
      simp only [LRUCache.step] at hs
      cases hs
      exact ⟨hw, rfl⟩

theorem WF_run [DecidableEq K] {c c' : LRUCache K V} {ops : List (Op K V)}
    (hw : WF c) (hr : c.run ops = some c') :
    WF c' ∧ c'.capacity_ = c.capacity_ := by
  induction ops generalizing c with
  | nil =>
      simp only [LRUCache.run] at hr
      cases hr
      exact ⟨hw, rfl⟩
  | cons op ops ih =>
      simp only [LRUCache.run] at hr
      cases hstep : c.step op with
      | none => rw [hstep] at hr; cases hr
      | some c2 =>
          rw [hstep] at hr
          simp only [] at hr
          rcases WF_step hw hstep with ⟨hw2, hcap2⟩
          rcases ih hw2 hr with ⟨hw3, hcap3⟩
          exact ⟨hw3, by rw [hcap3, hcap2]⟩

theorem find?_relocate [DecidableEq K] {l₁ l₂ : List (K × V)} {k a : K}
    {v v' : V} (hne : a ≠ k) :
    ((k, v') :: (l₁ ++ l₂)).find? (keyPred a) =
      (l₁ ++ (k, v) :: l₂).find? (keyPred a) := by
  rw [List.find?_cons]
  have hf : keyPred a (k, v') = false := by
    simp [keyPred]
    exact fun hc => absurd hc.symm hne
  rw [hf, find?_keyPred_ne (fun hc => hne hc.symm)]

example :
    (LRUCache.run (LRUCache.init 3)
      [Op.put 1 "one", Op.put 2 "two", Op.put 3 "three"] :
        Option (LRUCache Int String)) =
    some { capacity_ := 3,
           items_list_ := [(3, "three"), (2, "two"), (1, "one")],
           items_map_ := [(1, 1), (2, 2), (3, 3)] } := by
  decide

/-- C1: in a reachable (well-formed) state with at least one resident key
and exactly at capacity, `put` of a fresh key succeeds, the new recency
order is the new key followed by all old residents except the tail, the
size stays equal to the capacity (exactly one eviction, capacity never
exceeded), and the old tail (least-recently-touched) key is no longer
resident. -/
theorem C1_put_evicts_lru [DecidableEq K] {c : LRUCache K V} {k : K} (v : V)
    (hw : WF c) (hpos : 1 ≤ c.size) (hfull : c.size = c.capacity_)
    (hnew : k ∉ listKeys c) :
    ∃ c', c.put k v = some c' ∧
      listKeys c' = k :: (listKeys c).dropLast ∧
      c'.size = c.capacity_ ∧
      ∀ t, (listKeys c).getLast? = some t → t ∉ listKeys c' := by
  have hm : k ∉ mapKeys c := fun hmk => hnew (hw.subML k hmk)
  have hcap : c.capacity_ ≤ c.items_list_.length := by
    have h1 : c.items_list_.length = c.capacity_ := hfull
    omega
  rcases List.eq_nil_or_concat c.items_list_ with hemp | ⟨l', e, hcon⟩
  · exfalso
    have h0 : c.items_list_.length = 0 := by rw [hemp]; rfl
    have h1 : (1 : Nat) ≤ c.items_list_.length := hpos
    omega
  · have hcon' : c.items_list_ = l' ++ [e] := by
      rw [hcon, List.concat_eq_append]
    have hL : listKeys c = l'.map Prod.fst ++ [e.1] := by
      rw [listKeys, hcon']; simp
    refine ⟨_, put_new_evict hm hcap hcon', ?_, ?_, ?_⟩
    · rw [hL, List.dropLast_concat]
      simp [listKeys]
    · simp only [LRUCache.size, List.length_cons]
      have h2 : c.items_list_.length = l'.length + 1 := by rw [hcon']; simp
      have h3 : c.items_list_.length = c.capacity_ := hfull
      omega
    · intro t ht
      rw [hL, List.getLast?_concat] at ht
      injection ht with ht
      subst ht
      have he1L : e.1 ∈ listKeys c := by rw [hL]; simp
      have hne : e.1 ≠ k := fun hc => hnew (hc ▸ he1L)
      have hnodL : (l'.map Prod.fst ++ [e.1]).Nodup := by
        rw [← hL]; exact hw.nodupL
      have he1l' : e.1 ∉ l'.map Prod.fst :=
        (List.nodup_cons.1 ((List.perm_append_singleton e.1 _).nodup hnodL)).1
      intro hmem
      have hmem' : e.1 ∈ k :: l'.map Prod.fst := by
        simpa [listKeys] using hmem
      rcases List.mem_cons.1 hmem' with hc | hc
      · exact hne hc
      · exact he1l' hc

/-- C2: starting from a freshly constructed cache of capacity at least 1,
after every successfully completed sequence of public calls the size is at
most the capacity, and the capacity is still the one given at
construction. -/
theorem C2_capacity_bound [DecidableEq K] (cap : Nat) (hcap : 1 ≤ cap)
    (ops : List (Op K V)) {c' : LRUCache K V}
    (hr : (LRUCache.init cap : LRUCache K V).run ops = some c') :
    c'.size ≤ cap ∧ c'.capacity_ = cap := by
  rcases WF_run WF_init hr with ⟨hw, hcapeq⟩
  refine ⟨?_, hcapeq⟩
  have h1 : c'.items_list_.length ≤ c'.capacity_ := hw.lenLe
  rw [hcapeq] at h1
  exact h1

/-- C3: in a well-formed state, `get` of a resident key returns exactly the
value currently stored under it, relocates that key to the front of the
recency order (it becomes most-recently-used), and changes neither the
size, nor the resident key set, nor any stored value. -/
theorem C3_get_hit_semantics [DecidableEq K] {c : LRUCache K V} {k : K}
    (hw : WF c) (hres : k ∈ listKeys c) :
    ∃ v c', c.get k = (some v, c') ∧
      valueOf c k = some v ∧
      c'.size = c.size ∧
      (∀ a, a ∈ listKeys c' ↔ a ∈ listKeys c) ∧
      (∀ a, valueOf c' a = valueOf c a) ∧
      (listKeys c').head? = some k := by
  rcases get_hit hw hres with ⟨v, l₁, l₂, he, hnm, hg⟩
  have hperm : List.Perm (listKeys c)
      (k :: (l₁.map Prod.fst ++ l₂.map Prod.fst)) := by
    rw [listKeys, he]
    simp only [List.map_append, List.map_cons]
    exact List.perm_middle
  refine ⟨v, _, hg, ?_, ?_, ?_, ?_, ?_⟩
  · rw [valueOf, he, find?_keyPred_split hnm]
    rfl
  · simp only [LRUCache.size, he, List.length_cons, List.length_append]
    omega
  · intro a
    constructor
    · intro ha
      apply hperm.mem_iff.2
      simpa [listKeys] using ha
    · intro ha
      simpa [listKeys] using hperm.mem_iff.1 ha
  · intro a
    by_cases hak : a = k
    · subst hak
      have h1 : valueOf c a = some v := by
        rw [valueOf, he, find?_keyPred_split hnm]
        rfl
      have h2 : valueOf { c with items_list_ := (a, v) :: (l₁ ++ l₂) } a =
          some v := by
        simp [valueOf, List.find?_cons, keyPred]
      rw [h1, h2]
    · simp only [valueOf, he]
      exact congrArg (Option.map Prod.snd) (find?_relocate hak)
  · simp [listKeys]

/-- C4: in a well-formed state, `put` on an already resident key succeeds,
overwrites the stored value with the new one, makes the key
most-recently-used, changes neither the size nor the resident key set
(nothing is evicted), and leaves every other key's stored value
unchanged. -/
theorem C4_put_update_semantics [DecidableEq K] {c : LRUCache K V} {k : K}
    (v2 : V) (hw : WF c) (hres : k ∈ listKeys c) :
    ∃ c', c.put k v2 = some c' ∧
      valueOf c' k = some v2 ∧
      c'.size = c.size ∧
      (∀ a, a ∈ listKeys c' ↔ a ∈ listKeys c) ∧
      (∀ a, a ≠ k → valueOf c' a = valueOf c a) ∧
      (listKeys c').head? = some k := by
  rcases put_mem v2 hw hres with ⟨v0, l₁, l₂, he, hnm, hpe⟩
  have hperm : List.Perm (listKeys c)
      (k :: (l₁.map Prod.fst ++ l₂.map Prod.fst)) := by
    rw [listKeys, he]
    simp only [List.map_append, List.map_cons]
    exact List.perm_middle
  refine ⟨_, hpe, ?_, ?_, ?_, ?_, ?_⟩
  · simp [valueOf, List.find?_cons, keyPred]
  · simp only [LRUCache.size, he, List.length_cons, List.length_append]
    omega
  · intro a
    constructor
    · intro ha
      apply hperm.mem_iff.2
      simpa [listKeys] using ha
    · intro ha
      simpa [listKeys] using hperm.mem_iff.1 ha
  · intro a hak
    simp only [valueOf, he]
    exact congrArg (Option.map Prod.snd) (find?_relocate hak)
  · simp [listKeys]

/-- C5: in a well-formed state, `get` of a non-resident key returns the
disengaged optional and returns the state completely unchanged. -/
theorem C5_get_miss_noop [DecidableEq K] {c : LRUCache K V} {k : K}
    (hw : WF c) (hres : k ∉ listKeys c) : c.get k = (none, c) :=
  get_miss (fun hm => hres (hw.subML k hm))

/-- C6: `exists` reports exactly residency in a well-formed state, it is a
`const` call leaving the state unchanged, and erasing all `exists` calls
from any call sequence yields exactly the same final state, so interleaved
`exists` calls never change eviction behavior. -/
theorem C6_exists_nonmutating [DecidableEq K] :
    (∀ (c : LRUCache K V) (k : K), WF c →
      (c.exists_ k = true ↔ k ∈ listKeys c)) ∧
    (∀ (c : LRUCache K V) (k : K), c.step (Op.exists_ k) = some c) ∧
    (∀ (c : LRUCache K V) (ops : List (Op K V)),
      c.run ops = c.run (ops.filter (fun o => ! o.isEx))) := by
  refine ⟨?_, ?_, ?_⟩
  · intro c k hw
    constructor
    · intro h
      have hne : mapFind c.items_map_ k ≠ none := by
        intro hc
        rw [LRUCache.exists_, hc] at h
        simp at h
      have hk : k ∈ mapKeys c := by
        by_contra hc
        exact hne (mapFind_eq_none.2 hc)
      exact hw.subML k hk
    · intro h
      rw [LRUCache.exists_, mapFind_self hw (hw.subLM k h)]
      rfl
  · intro c k
    rfl
  · intro c ops
    induction ops generalizing c with
    | nil => rfl
    | cons op ops ih =>
        cases op with
        | get k => exact ih (c.get k).2
        | put k v =>
            cases hstep : c.put k v with
            | none =>
                simp only [LRUCache.run, LRUCache.step, List.filter_cons,
                  Op.isEx, Bool.not_false, if_true, hstep]
            | some c2 =>
                simp only [LRUCache.run, LRUCache.step, List.filter_cons,
                  Op.isEx, Bool.not_false, if_true, hstep]
                exact ih c2
        | exists_ k => exact ih c
        | size => exact ih c

/-- C7: after every successfully completed call sequence from a fresh cache
of capacity at least 1, the index map and the recency list hold the same
key set, have the same cardinality bounded by the capacity, and every
index entry points to the position holding its own key, that key being
resident in the list. -/
theorem C7_structure_invariants [DecidableEq K] (cap : Nat) (hcap : 1 ≤ cap)
    (ops : List (Op K V)) {c' : LRUCache K V}
    (hr : (LRUCache.init cap : LRUCache K V).run ops = some c') :
    (∀ a, a ∈ mapKeys c' ↔ a ∈ listKeys c') ∧
    c'.items_map_.length = c'.items_list_.length ∧
    c'.items_list_.length ≤ cap ∧
    (∀ p ∈ c'.items_map_, p.2 = p.1 ∧ p.1 ∈ listKeys c') := by
  rcases WF_run WF_init hr with ⟨hw, hcapeq⟩
  refine ⟨fun a => ⟨hw.subML a, hw.subLM a⟩, hw.lenEq.symm, ?_, ?_⟩
  · have h1 : c'.items_list_.length ≤ c'.capacity_ := hw.lenLe
    rw [hcapeq] at h1
    exact h1
  · intro p hp
    refine ⟨hw.mapId p hp, ?_⟩
    exact hw.subML p.1 (List.mem_map.2 ⟨p, hp, rfl⟩)

/-- C8: the demonstration scenario at capacity 3: after putting keys 1, 2,
3, `get 2` returns "two"; then `put 4` evicts key 1, the recency order
becomes [4, 2, 3], `exists 1` is false and `exists 3` is true. -/
theorem C8_demo_scenario :
    ∃ c₁ c₂ c₃ : LRUCache Int String,
      (LRUCache.init 3 : LRUCache Int String).run
        [Op.put 1 "one", Op.put 2 "two", Op.put 3 "three"] = some c₁ ∧
      c₁.get 2 = (some "two", c₂) ∧
      c₂.put 4 "four" = some c₃ ∧
      listKeys c₃ = [4, 2, 3] ∧
      (1 : Int) ∉ listKeys c₃ ∧
      c₃.exists_ 1 = false ∧
      c₃.exists_ 3 = true := by
  refine ⟨⟨3, [(3, "three"), (2, "two"), (1, "one")], [(1, 1), (2, 2), (3, 3)]⟩,
    ⟨3, [(2, "two"), (3, "three"), (1, "one")], [(1, 1), (2, 2), (3, 3)]⟩,
    ⟨3, [(4, "four"), (2, "two"), (3, "three")], [(2, 2), (3, 3), (4, 4)]⟩,
    ?_, ?_, ?_, ?_, ?_, ?_, ?_⟩ <;> decide

/-- C10: with capacity at least 1 every `put` on a well-formed state
completes (the eviction branch only ever reads `back()` of a non-empty
list), while at capacity 0 the very first `put` of a new key reaches
`back()` on the empty list, i.e. undefined behavior. -/
theorem C10_eviction_branch_safety [DecidableEq K] :
    (∀ (c : LRUCache K V) (k : K) (v : V), WF c → 1 ≤ c.capacity_ →
      (c.put k v).isSome = true) ∧
    (∀ (k : K) (v : V), (LRUCache.init 0 : LRUCache K V).put k v = none) := by
  constructor
  · intro c k v hw hcap
    by_cases hm : k ∈ mapKeys c
    · rcases put_mem v hw (hw.subML k hm) with ⟨v0, l₁, l₂, _, _, hpe⟩
      rw [hpe]
      rfl
    · by_cases hfull : c.capacity_ ≤ c.items_list_.length
      · rcases List.eq_nil_or_concat c.items_list_ with hemp | ⟨l', e, hcon⟩
        · exfalso
          have h0 : c.items_list_.length = 0 := by rw [hemp]; rfl
          omega
        · have hcon' : c.items_list_ = l' ++ [e] := by
            rw [hcon, List.concat_eq_append]
          rw [put_new_evict hm hfull hcon']
          rfl
      · rw [put_new_no_evict hm (by omega)]
        rfl
  · intro k v
    rfl

/-- A concrete full cache of capacity 2 used to instantiate the theorems:
key 2 is most recently used, key 1 is least recently used. -/
def cacheA : LRUCache Int String :=
  ⟨2, [(2, "b"), (1, "a")], [(1, 1), (2, 2)]⟩

theorem C1_put_evicts_lru_witness :
    WF cacheA ∧ 1 ≤ cacheA.size ∧ cacheA.size = cacheA.capacity_ ∧
    (3 : Int) ∉ listKeys cacheA ∧
    (∃ c', cacheA.put 3 "c" = some c' ∧
      listKeys c' = 3 :: (listKeys cacheA).dropLast ∧
      c'.size = cacheA.capacity_ ∧
      ∀ t, (listKeys cacheA).getLast? = some t → t ∉ listKeys c') :=
  ⟨by decide, by decide, by decide, by decide,
    C1_put_evicts_lru "c" (by decide) (by decide) (by decide) (by decide)⟩

theorem C2_capacity_bound_witness :
    (LRUCache.init 2 : LRUCache Int String).run
        [Op.put 1 "a", Op.put 2 "b", Op.put 3 "c"] =
      some ⟨2, [(3, "c"), (2, "b")], [(2, 2), (3, 3)]⟩ ∧
    ((⟨2, [(3, "c"), (2, "b")], [(2, 2), (3, 3)]⟩ : LRUCache Int String).size ≤ 2 ∧
      (⟨2, [(3, "c"), (2, "b")], [(2, 2), (3, 3)]⟩ :
        LRUCache Int String).capacity_ = 2) := by
  have h : (LRUCache.init 2 : LRUCache Int String).run
      [Op.put 1 "a", Op.put 2 "b", Op.put 3 "c"] =
      some ⟨2, [(3, "c"), (2, "b")], [(2, 2), (3, 3)]⟩ := by decide
  exact ⟨h, C2_capacity_bound 2 (by decide) _ h⟩

theorem C3_get_hit_semantics_witness :
    WF cacheA ∧ (1 : Int) ∈ listKeys cacheA ∧
    (∃ v c', cacheA.get 1 = (some v, c') ∧
      valueOf cacheA 1 = some v ∧
      c'.size = cacheA.size ∧
      (∀ a, a ∈ listKeys c' ↔ a ∈ listKeys cacheA) ∧
      (∀ a, valueOf c' a = valueOf cacheA a) ∧
      (listKeys c').head? = some 1) :=
  ⟨by decide, by decide, C3_get_hit_semantics (by decide) (by decide)⟩

theorem C4_put_update_semantics_witness :
    WF cacheA ∧ (1 : Int) ∈ listKeys cacheA ∧
    (∃ c', cacheA.put 1 "z" = some c' ∧
      valueOf c' 1 = some "z" ∧
      c'.size = cacheA.size ∧
      (∀ a, a ∈ listKeys c' ↔ a ∈ listKeys cacheA) ∧
      (∀ a, a ≠ 1 → valueOf c' a = valueOf cacheA a) ∧
      (listKeys c').head? = some 1) :=
  ⟨by decide, by decide, C4_put_update_semantics "z" (by decide) (by decide)⟩

theorem C5_get_miss_noop_witness :
    WF cacheA ∧ (5 : Int) ∉ listKeys cacheA ∧
    cacheA.get 5 = (none, cacheA) :=
  ⟨by decide, by decide, C5_get_miss_noop (by decide) (by decide)⟩

theorem C6_exists_nonmutating_witness :
    WF cacheA ∧ (cacheA.exists_ 1 = true ↔ (1 : Int) ∈ listKeys cacheA) :=
  ⟨by decide, C6_exists_nonmutating.1 cacheA 1 (by decide)⟩

theorem C7_structure_invariants_witness :
    (LRUCache.init 2 : LRUCache Int String).run
        [Op.put 1 "a", Op.get 1, Op.put 2 "b"] =
      some ⟨2, [(2, "b"), (1, "a")], [(1, 1), (2, 2)]⟩ ∧
    ((∀ a, a ∈ mapKeys (⟨2, [(2, "b"), (1, "a")], [(1, 1), (2, 2)]⟩ :
          LRUCache Int String) ↔
        a ∈ listKeys (⟨2, [(2, "b"), (1, "a")], [(1, 1), (2, 2)]⟩ :
          LRUCache Int String)) ∧
      (⟨2, [(2, "b"), (1, "a")], [(1, 1), (2, 2)]⟩ :
        LRUCache Int String).items_map_.length =
        (⟨2, [(2, "b"), (1, "a")], [(1, 1), (2, 2)]⟩ :
          LRUCache Int String).items_list_.length ∧
      (⟨2, [(2, "b"), (1, "a")], [(1, 1), (2, 2)]⟩ :
        LRUCache Int String).items_list_.length ≤ 2 ∧
      (∀ p ∈ (⟨2, [(2, "b"), (1, "a")], [(1, 1), (2, 2)]⟩ :
          LRUCache Int String).items_map_,
        p.2 = p.1 ∧ p.1 ∈ listKeys (⟨2, [(2, "b"), (1, "a")], [(1, 1), (2, 2)]⟩ :
          LRUCache Int String))) := by
  have h : (LRUCache.init 2 : LRUCache Int String).run
      [Op.put 1 "a", Op.get 1, Op.put 2 "b"] =
      some ⟨2, [(2, "b"), (1, "a")], [(1, 1), (2, 2)]⟩ := by decide
  exact ⟨h, C7_structure_invariants 2 (by decide) _ h⟩

theorem C10_eviction_branch_safety_witness :
    (WF cacheA ∧ 1 ≤ cacheA.capacity_ ∧ (cacheA.put 3 "c").isSome = true) ∧
    (LRUCache.init 0 : LRUCache Int String).put 7 "x" = none :=
  ⟨⟨by decide, by decide,
      C10_eviction_branch_safety.1 cacheA 3 "c" (by decide) (by decide)⟩,
    C10_eviction_branch_safety.2 7 "x"⟩
